import Mathlib

/-!
Verification of the PNGme chunk codec.

Shallow embedding of `src/chunk_type.rs` and `src/chunk.rs` (bytes are `Nat`
values `< 256`, Rust `u32` arithmetic is `Nat` with explicit `% 2^32` where
truncation can occur, Rust slices are `List Nat`).  The `Png` container type
(`png.rs`) is not part of the sources and is modelled from the specification.
-/

namespace Pngme

/-! ### ASCII predicates (embedding `u8::is_ascii_uppercase` etc.) -/

def isAsciiUppercase (b : Nat) : Bool := 65 ≤ b && b ≤ 90

def isAsciiLowercase (b : Nat) : Bool := 97 ≤ b && b ≤ 122

def isAsciiAlphabetic (b : Nat) : Bool := isAsciiUppercase b || isAsciiLowercase b

/-! ### ChunkType (from `src/chunk_type.rs`) -/

/-- The `ChunkType` struct: a 4-byte code (Rust `[u8; 4]`). -/
structure ChunkType where
  c0 : Nat
  c1 : Nat
  c2 : Nat
  c3 : Nat
deriving DecidableEq, Repr

/-- `ChunkType::bytes`: the raw 4 bytes. -/
def ChunkType.bytes (t : ChunkType) : List Nat := [t.c0, t.c1, t.c2, t.c3]

/-- `ChunkType::is_critical`: byte 0 is ASCII uppercase. -/
def ChunkType.is_critical (t : ChunkType) : Bool := isAsciiUppercase t.c0

/-- `ChunkType::is_public`: byte 1 is ASCII uppercase. -/
def ChunkType.is_public (t : ChunkType) : Bool := isAsciiUppercase t.c1

/-- `ChunkType::is_reserved_bit_valid`: byte 2 is ASCII uppercase. -/
def ChunkType.is_reserved_bit_valid (t : ChunkType) : Bool := isAsciiUppercase t.c2

/-- `ChunkType::is_safe_to_copy`: byte 3 is ASCII lowercase. -/
def ChunkType.is_safe_to_copy (t : ChunkType) : Bool := isAsciiLowercase t.c3

/-- `ChunkType::is_valid`: defined as `is_reserved_bit_valid`. -/
def ChunkType.is_valid (t : ChunkType) : Bool := t.is_reserved_bit_valid

/-- `impl TryFrom<[u8; 4]> for ChunkType`: succeeds iff every byte is
ASCII alphabetic. -/
def ChunkType.try_from (b0 b1 b2 b3 : Nat) : Except String ChunkType :=
  if ([b0, b1, b2, b3].all isAsciiAlphabetic) then .ok ⟨b0, b1, b2, b3⟩
  else .error "Cant create chunk type with invalid data"

/-- The invariant every Rust `ChunkType` value satisfies (its only
constructor, `try_from`, enforces it). -/
def ChunkType.wf (t : ChunkType) : Prop := t.bytes.all isAsciiAlphabetic = true

instance (t : ChunkType) : Decidable t.wf := by
  unfold ChunkType.wf; infer_instance

/-! ### CRC-32 / ISO-HDLC (embedding the `crc` crate's
`Crc::<u32>::new(&CRC_32_ISO_HDLC).checksum`): the standard reflected
CRC-32 (reversed polynomial `0xEDB88320`, init and xorout `0xFFFFFFFF`),
processing each byte LSB-first. -/

def CRC_POLY : Nat := 0xEDB88320

/-- One LSB-first shift-and-conditionally-xor step of the reflected CRC-32. -/
def crcBitStep (c : Nat) : Nat :=
  if c % 2 = 1 then (c / 2) ^^^ CRC_POLY else c / 2

/-- Absorb one input byte into the CRC state. -/
def crcByteStep (c b : Nat) : Nat := crcBitStep^[8] (c ^^^ b)

/-- Run the CRC state machine over a message from a starting state. -/
def crc32core (c : Nat) (m : List Nat) : Nat := m.foldl crcByteStep c

/-- CRC-32 (ISO-HDLC) of a byte sequence. -/
def crc32 (m : List Nat) : Nat := crc32core 0xFFFFFFFF m ^^^ 0xFFFFFFFF

/-- The additive contribution of the input parity to one CRC step. -/
def condBit (c : Nat) : Nat := if c % 2 = 1 then CRC_POLY else 0

/-! ### Chunk (from `src/chunk.rs`) -/

/-- The `Chunk` struct: a chunk type and the raw data bytes. -/
structure Chunk where
  chunk_type : ChunkType
  data : List Nat
deriving DecidableEq, Repr

/-- `Chunk::length`: `data.len() as u32` (the cast truncates mod `2^32`). -/
def Chunk.length (c : Chunk) : Nat := c.data.length % 2 ^ 32

/-- `Chunk::crc`: CRC-32 over the type bytes followed by the data bytes,
recomputed from the fields on every call. -/
def Chunk.crc (c : Chunk) : Nat := crc32 (c.chunk_type.bytes ++ c.data)

/-- `u32::to_be_bytes`: big-endian 4-byte encoding. -/
def u32_be (n : Nat) : List Nat :=
  [n / 2 ^ 24 % 256, n / 2 ^ 16 % 256, n / 2 ^ 8 % 256, n % 256]

/-- `u32::from_be_bytes` on a 4-byte slice. -/
def be_u32 (l : List Nat) : Nat :=
  l.getD 0 0 * 2 ^ 24 + l.getD 1 0 * 2 ^ 16 + l.getD 2 0 * 2 ^ 8 + l.getD 3 0

/-- `Chunk::as_bytes`: `length | type | data | crc`, integers big-endian. -/
def Chunk.as_bytes (c : Chunk) : List Nat :=
  u32_be c.length ++ c.chunk_type.bytes ++ c.data ++ u32_be c.crc

/-- The distinguishable error values `TryFrom<&[u8]> for Chunk` can return
(the Rust code boxes them into `Box<dyn Error>`; the dynamic type and the
payload of the box are what we keep). -/
inductive ChunkErr where
  /-- the `ChunkType` construction error propagated by `?` -/
  | typeErr (msg : String)
  /-- `TryFromSliceError`: the bytes after the data are not exactly 4 -/
  | sliceErr
  /-- `ChunkDecodingError`: stored CRC (received) ≠ recomputed CRC (expected) -/
  | crcMismatch (received expected : Nat)
deriving DecidableEq, Repr

/-- Outcome of running a fallible Rust function: a value, a returned error,
or a panic (out-of-bounds slice index aborts the process). -/
inductive DecodeResult (α : Type) where
  | ok (a : α)
  | err (e : ChunkErr)
  | panicked (msg : String)
deriving DecidableEq, Repr

/-- `true` exactly on `.err (.crcMismatch _ _)`. -/
def DecodeResult.isCrcMismatch : DecodeResult α → Bool
  | .err (.crcMismatch _ _) => true
  | _ => false

/-- `impl TryFrom<&[u8]> for Chunk`, Rust evaluation order:
`value[0..4]` (panics under 4 bytes) read big-endian as `length`;
`value[4..8]` (panics under 8 bytes) converted to a `ChunkType` (`?` returns
the construction error); `value[8..8+length]` (panics when the slice is too
short) collected as the data; `value[8+length..]` converted to `[u8; 4]`
(`?` returns a slice error unless exactly 4 bytes remain) read big-endian as
the stored CRC; finally the recomputed CRC must equal the stored one. -/
def chunk_try_from (value : List Nat) : DecodeResult Chunk :=
  if value.length < 4 then .panicked "slice index out of range"
  else
    let length := be_u32 (value.take 4)
    if value.length < 8 then .panicked "slice index out of range"
    else
      match ChunkType.try_from (value.getD 4 0) (value.getD 5 0)
          (value.getD 6 0) (value.getD 7 0) with
      | .error e => .err (.typeErr e)
      | .ok chunk_type =>
        if value.length < 8 + length then .panicked "slice index out of range"
        else
          let chunk_data := (value.drop 8).take length
          let rest := value.drop (8 + length)
          if rest.length = 4 then
            let crc := be_u32 rest
            let chunk : Chunk := ⟨chunk_type, chunk_data⟩
            if chunk.crc ≠ crc then .err (.crcMismatch crc chunk.crc)
            else .ok chunk
          else .err .sliceErr

/-- The byte at position `j` of `s` with its bit `i` flipped (the rest of
`s` unchanged): the single-bit corruptions of a serialized chunk. -/
def flipBitAt (s : List Nat) (j i : Nat) : List Nat :=
  s.set j (s.getD j 0 ^^^ 2 ^ i)

/-- The ASCII bytes of "This is where your secret message will be!"
(42 bytes), the repository's known CRC test vector. -/
def secretMessageBytes : List Nat :=
  [84, 104, 105, 115, 32, 105, 115, 32, 119, 104, 101, 114, 101, 32,
   121, 111, 117, 114, 32, 115, 101, 99, 114, 101, 116, 32, 109, 101,
   115, 115, 97, 103, 101, 32, 119, 105, 108, 108, 32, 98, 101, 33]

/-! ### Container (`Png`) — spec-modelled

The repository's `png.rs` module (declared in `main.rs` as `mod png` and used
as `Png`) is not among the available sources; only its callers are.  The
definitions in this section are therefore modelled from the specification
(§3 "Container", §4.3) rather than translated from code. -/

/-- Modelled from the spec: the fixed 8-byte leading signature ("the format's
magic bytes") of the PNG-style container; `png.rs` is missing from the
sources, so the standard PNG magic is used. -/
def pngSignature : List Nat := [137, 80, 78, 71, 13, 10, 26, 10]

/-- Modelled from the spec: the container is an ordered sequence of chunks
behind the fixed signature. -/
structure Png where
  chunks : List Chunk
deriving DecidableEq, Repr

/-- Modelled from the spec: the error kinds of the container operations
(§7): signature mismatch, a propagated chunk-decoding failure (a truncated
chunk is also surfaced as an error, per the spec's hardening requirement),
and not-found on removal. -/
inductive PngError where
  | signatureMismatch
  | chunkError (e : ChunkErr)
  | truncatedChunk (msg : String)
  | notFound
deriving DecidableEq, Repr

/-- Modelled from the spec: "repeatedly decode chunks starting immediately
after the signature, each decode consuming exactly `12 + length` bytes and
advancing the cursor, until the buffer is exhausted. Any chunk-decode
failure aborts the whole parse and propagates that error." -/
def parseChunks (buf : List Nat) : Except PngError (List Chunk) :=
  if hbuf : buf = [] then .ok []
  else
    match chunk_try_from (buf.take (12 + be_u32 (buf.take 4))) with
    | .ok c =>
      match parseChunks (buf.drop (12 + be_u32 (buf.take 4))) with
      | .ok cs => .ok (c :: cs)
      | .error e => .error e
    | .err e => .error (.chunkError e)
    | .panicked msg => .error (.truncatedChunk msg)
termination_by buf.length
decreasing_by
  have : buf.length ≠ 0 := fun hl => hbuf (List.eq_nil_of_length_eq_zero hl)
  simp [List.length_drop]; omega

/-- Modelled from the spec: `Container::parse` verifies the fixed leading
signature, then decodes the chunk sequence from the remainder. -/
def Png.parse (buf : List Nat) : Except PngError Png :=
  if buf.take 8 = pngSignature then
    match parseChunks (buf.drop 8) with
    | .ok cs => .ok ⟨cs⟩
    | .error e => .error e
  else .error .signatureMismatch

/-- Modelled from the spec: `Container::serialize` is the signature bytes
followed by each chunk's serialization, in sequence order. -/
def Png.as_bytes (p : Png) : List Nat :=
  pngSignature ++ (p.chunks.map Chunk.as_bytes).flatten

/-- Remove the first chunk with the given type from a list, keeping the
relative order of the others. -/
def removeFirst (cs : List Chunk) (t : ChunkType) :
    Option (Chunk × List Chunk) :=
  match cs with
  | [] => none
  | c :: rest =>
    if c.chunk_type = t then some (c, rest)
    else (removeFirst rest t).map (fun p => (p.1, c :: p.2))

/-- Modelled from the spec: `Container::remove_chunk` scans linearly for the
first chunk of the given type; if found it removes it (preserving the order
of the rest) and returns it, otherwise it fails with a not-found error and
leaves the sequence unchanged.  The Rust `&mut self` receiver is modelled by
returning the updated container next to the result. -/
def Png.remove_chunk (p : Png) (t : ChunkType) :
    Except PngError Chunk × Png :=
  match removeFirst p.chunks t with
  | some (c, rest) => (.ok c, ⟨rest⟩)
  | none => (.error .notFound, p)

/-! ## Basic lemmas -/

theorem length_u32_be (n : Nat) : (u32_be n).length = 4 := rfl

theorem length_bytes (t : ChunkType) : t.bytes.length = 4 := rfl

theorem be_u32_u32_be {n : Nat} (h : n < 2 ^ 32) : be_u32 (u32_be n) = n := by
  simp only [be_u32, u32_be, List.getD_cons_zero, List.getD_cons_succ]
  omega

theorem u32_be_be_u32 {a b c d : Nat} (ha : a < 256) (hb : b < 256)
    (hc : c < 256) (hd : d < 256) :
    u32_be (be_u32 [a, b, c, d]) = [a, b, c, d] := by
  simp only [be_u32, u32_be, List.getD_cons_zero, List.getD_cons_succ,
    List.cons.injEq, and_true]
  refine ⟨?_, ?_, ?_, ?_⟩ <;> omega

theorem be_u32_lt {a b c d : Nat} (ha : a < 256) (hb : b < 256)
    (hc : c < 256) (hd : d < 256) : be_u32 [a, b, c, d] < 2 ^ 32 := by
  simp only [be_u32, List.getD_cons_zero, List.getD_cons_succ]
  omega

/-! ## CRC-32 lemmas: GF(2)-linearity of the state machine, state bounds,
and nonzero preservation.  These give single-bit error detection. -/

theorem xor_mix (a b p q : Nat) :
    (a ^^^ b) ^^^ (p ^^^ q) = (a ^^^ p) ^^^ (b ^^^ q) := by
  rw [Nat.xor_assoc a b (p ^^^ q), ← Nat.xor_assoc b p q, Nat.xor_comm b p,
    Nat.xor_assoc p b q, ← Nat.xor_assoc a p (b ^^^ q)]

theorem crcBitStep_eq (c : Nat) : crcBitStep c = c / 2 ^^^ condBit c := by
  unfold crcBitStep condBit
  split <;> simp

theorem condBit_xor (x y : Nat) :
    condBit (x ^^^ y) = condBit x ^^^ condBit y := by
  unfold condBit
  have hxy := Nat.xor_mod_two_eq_one (a := x) (b := y)
  by_cases hx : x % 2 = 1 <;> by_cases hy : y % 2 = 1 <;>
    simp [hx, hy, iff_iff_implies_and_implies] at hxy ⊢ <;> simp [hxy]

theorem crcBitStep_xor (x y : Nat) :
    crcBitStep (x ^^^ y) = crcBitStep x ^^^ crcBitStep y := by
  rw [crcBitStep_eq, crcBitStep_eq, crcBitStep_eq, Nat.xor_div_two,
    condBit_xor, xor_mix]

theorem crcBitStep_iterate_xor (n x y : Nat) :
    crcBitStep^[n] (x ^^^ y) = crcBitStep^[n] x ^^^ crcBitStep^[n] y := by
  induction n generalizing x y with
  | zero => rfl
  | succ n ih =>
    rw [Function.iterate_succ_apply, Function.iterate_succ_apply,
      Function.iterate_succ_apply, crcBitStep_xor, ih]

theorem crcByteStep_xor (c1 c2 b1 b2 : Nat) :
    crcByteStep (c1 ^^^ c2) (b1 ^^^ b2) =
      crcByteStep c1 b1 ^^^ crcByteStep c2 b2 := by
  unfold crcByteStep
  rw [xor_mix, crcBitStep_iterate_xor]

theorem crc32core_xor_split (c d : Nat) (m : List Nat) :
    crc32core (c ^^^ d) m =
      crc32core c m ^^^ crc32core d (List.replicate m.length 0) := by
  induction m generalizing c d with
  | nil => rfl
  | cons b m ih =>
    have hb : crcByteStep (c ^^^ d) b = crcByteStep c b ^^^ crcByteStep d 0 := by
      rw [← crcByteStep_xor, Nat.xor_zero]
    simp only [crc32core, List.foldl_cons, List.length_cons,
      List.replicate_succ] at ih ⊢
    rw [hb, ih]

theorem crcBitStep_lt {c : Nat} (h : c < 2 ^ 32) : crcBitStep c < 2 ^ 32 := by
  unfold crcBitStep
  split
  · exact Nat.xor_lt_two_pow (by omega) (by norm_num [CRC_POLY])
  · omega

theorem crcBitStep_ne_zero {c : Nat} (h : c ≠ 0) (hlt : c < 2 ^ 32) :
    crcBitStep c ≠ 0 := by
  unfold crcBitStep
  split
  · next hodd =>
    intro h0
    have h31 : ((c / 2) ^^^ CRC_POLY).testBit 31 = true := by
      rw [Nat.testBit_xor,
        Nat.testBit_lt_two_pow (show c / 2 < 2 ^ 31 by omega)]
      decide
    rw [h0] at h31
    simp [Nat.zero_testBit] at h31
  · next heven => omega

theorem crcBitStep_iterate_pres {c : Nat} (n : Nat) (h : c ≠ 0)
    (hlt : c < 2 ^ 32) :
    crcBitStep^[n] c ≠ 0 ∧ crcBitStep^[n] c < 2 ^ 32 := by
  induction n generalizing c with
  | zero => exact ⟨h, hlt⟩
  | succ n ih =>
    rw [Function.iterate_succ_apply]
    exact ih (crcBitStep_ne_zero h hlt) (crcBitStep_lt hlt)

theorem crcBitStep_iterate_lt {c : Nat} (n : Nat) (hlt : c < 2 ^ 32) :
    crcBitStep^[n] c < 2 ^ 32 := by
  induction n generalizing c with
  | zero => exact hlt
  | succ n ih =>
    rw [Function.iterate_succ_apply]
    exact ih (crcBitStep_lt hlt)

theorem crc32core_zeros_ne_zero {c : Nat} (r : Nat) (h : c ≠ 0)
    (hlt : c < 2 ^ 32) : crc32core c (List.replicate r 0) ≠ 0 := by
  induction r generalizing c with
  | zero => simpa [crc32core]
  | succ r ih =>
    simp only [crc32core, List.replicate_succ, List.foldl_cons]
    have hb : crcByteStep c 0 = crcBitStep^[8] c := by
      unfold crcByteStep; rw [Nat.xor_zero]
    rw [hb]
    obtain ⟨h1, h2⟩ := crcBitStep_iterate_pres 8 h hlt
    exact ih h1 h2

theorem crc32core_lt {c : Nat} {m : List Nat} (hc : c < 2 ^ 32)
    (hm : ∀ b ∈ m, b < 256) : crc32core c m < 2 ^ 32 := by
  induction m generalizing c with
  | nil => exact hc
  | cons b m ih =>
    simp only [crc32core, List.foldl_cons]
    refine ih ?_ (fun x hx => hm x (List.mem_cons_of_mem _ hx))
    unfold crcByteStep
    exact crcBitStep_iterate_lt 8
      (Nat.xor_lt_two_pow hc (lt_trans (hm b (List.mem_cons_self _ _)) (by norm_num)))

theorem crc32_lt {m : List Nat} (hm : ∀ b ∈ m, b < 256) : crc32 m < 2 ^ 32 := by
  unfold crc32
  exact Nat.xor_lt_two_pow (crc32core_lt (by norm_num) hm) (by norm_num)

theorem crc32core_append (c : Nat) (l1 l2 : List Nat) :
    crc32core c (l1 ++ l2) = crc32core (crc32core c l1) l2 := by
  simp [crc32core, List.foldl_append]

theorem crc32core_cons (c b : Nat) (m : List Nat) :
    crc32core c (b :: m) = crc32core (crcByteStep c b) m := rfl

/-- A single-bit flip inside one byte of the message always changes the
running CRC state. -/
theorem crc32core_flip_ne (c : Nat) (pre suf : List Nat) (b i : Nat)
    (hi : i < 32) :
    crc32core c (pre ++ (b ^^^ 2 ^ i) :: suf) ≠ crc32core c (pre ++ b :: suf) := by
  rw [crc32core_append, crc32core_append, crc32core_cons, crc32core_cons]
  set c' := crc32core c pre with hc'
  have hsplit : crcByteStep c' (b ^^^ 2 ^ i) =
      crcByteStep c' b ^^^ crcByteStep 0 (2 ^ i) := by
    rw [← crcByteStep_xor, Nat.xor_zero]
  rw [hsplit]
  have hd : crcByteStep 0 (2 ^ i) ≠ 0 ∧ crcByteStep 0 (2 ^ i) < 2 ^ 32 := by
    unfold crcByteStep
    rw [Nat.zero_xor]
    exact crcBitStep_iterate_pres 8 (by positivity)
      (Nat.pow_lt_pow_right (by norm_num) hi)
  intro heq
  rw [crc32core_xor_split (crcByteStep c' b) (crcByteStep 0 (2 ^ i)) suf] at heq
  have hzero : crc32core (crcByteStep 0 (2 ^ i)) (List.replicate suf.length 0) = 0 := by
    calc crc32core (crcByteStep 0 (2 ^ i)) (List.replicate suf.length 0)
        = crc32core (crcByteStep c' b) suf ^^^
            (crc32core (crcByteStep c' b) suf ^^^
              crc32core (crcByteStep 0 (2 ^ i)) (List.replicate suf.length 0)) := by
          rw [Nat.xor_cancel_left]
      _ = crc32core (crcByteStep c' b) suf ^^^ crc32core (crcByteStep c' b) suf := by
          rw [heq]
      _ = 0 := Nat.xor_self _
  exact crc32core_zeros_ne_zero suf.length hd.1 hd.2 hzero

/-- A single-bit flip inside one byte of the message changes the CRC-32. -/
theorem crc32_flip_ne (pre suf : List Nat) (b i : Nat) (hi : i < 32) :
    crc32 (pre ++ (b ^^^ 2 ^ i) :: suf) ≠ crc32 (pre ++ b :: suf) := by
  unfold crc32
  intro h
  have h2 : crc32core 0xFFFFFFFF (pre ++ (b ^^^ 2 ^ i) :: suf) =
      crc32core 0xFFFFFFFF (pre ++ b :: suf) := by
    have := congrArg (· ^^^ 0xFFFFFFFF) h
    simpa [Nat.xor_assoc, Nat.xor_self] using this
  exact crc32core_flip_ne 0xFFFFFFFF pre suf b i hi h2

/-! ## Decoder lemmas -/

theorem getD_drop (l : List Nat) (n k : Nat) :
    (l.drop n).getD k 0 = l.getD (n + k) 0 := by
  simp [List.getD_eq_getElem?_getD, List.getElem?_drop]

theorem take4_eq : ∀ (l : List Nat), 4 ≤ l.length →
    l.take 4 = [l.getD 0 0, l.getD 1 0, l.getD 2 0, l.getD 3 0]
  | a :: b :: c :: d :: rest, _ => by simp [List.take]
  | [], h => by simp at h
  | [a], h => by simp at h
  | [a, b], h => by simp at h
  | [a, b, c], h => by simp at h

/-- Master decoding lemma: running the decoder on a stream of the shape
`length | type | data | tail` (valid type bytes, length in range) performs
the final 4-byte CRC conversion on the whole tail and then the CRC check. -/
theorem chunk_try_from_general (t : ChunkType) (d tail : List Nat)
    (ht : t.bytes.all isAsciiAlphabetic = true) (hd : d.length < 2 ^ 32) :
    chunk_try_from (u32_be d.length ++ t.bytes ++ d ++ tail) =
      if tail.length = 4 then
        if crc32 (t.bytes ++ d) = be_u32 tail then .ok ⟨t, d⟩
        else .err (.crcMismatch (be_u32 tail) (crc32 (t.bytes ++ d)))
      else .err .sliceErr := by
  obtain ⟨c0, c1, c2, c3⟩ := t
  simp only [ChunkType.bytes] at ht ⊢
  set s := u32_be d.length ++ [c0, c1, c2, c3] ++ d ++ tail with hsdef
  have hassoc : s = u32_be d.length ++ ([c0, c1, c2, c3] ++ (d ++ tail)) := by
    simp [hsdef, List.append_assoc]
  have hlen : s.length = 8 + d.length + tail.length := by
    simp [hsdef, u32_be]
    omega
  have htake4 : s.take 4 = u32_be d.length := by
    rw [hassoc]
    exact List.take_left' rfl
  have hdrop4 : s.drop 4 = c0 :: c1 :: c2 :: c3 :: (d ++ tail) := by
    rw [hassoc, List.drop_left' (show (u32_be d.length).length = 4 from rfl)]
    rfl
  have hdrop8 : s.drop 8 = d ++ tail := by
    rw [show (8 : Nat) = 4 + 4 from rfl, ← List.drop_drop, hdrop4]
    rfl
  have hget4 : s.getD 4 0 = c0 := by
    rw [show (4 : Nat) = 4 + 0 from rfl, ← getD_drop, hdrop4]
    rfl
  have hget5 : s.getD 5 0 = c1 := by
    rw [show (5 : Nat) = 4 + 1 from rfl, ← getD_drop, hdrop4]
    rfl
  have hget6 : s.getD 6 0 = c2 := by
    rw [show (6 : Nat) = 4 + 2 from rfl, ← getD_drop, hdrop4]
    rfl
  have hget7 : s.getD 7 0 = c3 := by
    rw [show (7 : Nat) = 4 + 3 from rfl, ← getD_drop, hdrop4]
    rfl
  have hdata : (s.drop 8).take d.length = d := by
    rw [hdrop8]
    exact List.take_left' rfl
  have hrest : s.drop (8 + d.length) = tail := by
    rw [← List.drop_drop, hdrop8]
    exact List.drop_left' rfl
  have htypeok : ChunkType.try_from c0 c1 c2 c3 = .ok ⟨c0, c1, c2, c3⟩ := by
    unfold ChunkType.try_from
    rw [if_pos ht]
  have hc1 : ¬ (8 + d.length + tail.length < 4) := by omega
  have hc2 : ¬ (8 + d.length + tail.length < 8) := by omega
  have hc3 : ¬ (8 + d.length + tail.length < 8 + d.length) := by omega
  simp only [chunk_try_from]
  rw [htake4, be_u32_u32_be hd, hget4, hget5, hget6, hget7, htypeok, hlen,
    hdata, hrest]
  by_cases h4 : tail.length = 4
  · have hc1' : ¬ (8 + d.length + 4 < 4) := by omega
    have hc2' : ¬ (8 + d.length + 4 < 8) := by omega
    have hc3' : ¬ (8 + d.length + 4 < 8 + d.length) := by omega
    by_cases hcrc : crc32 (c0 :: c1 :: c2 :: c3 :: d) = be_u32 tail
    · simp [hc1, hc2, hc3, hc1', hc2', hc3', h4, hcrc, Chunk.crc,
        ChunkType.bytes]
    · simp [hc1, hc2, hc3, hc1', hc2', hc3', h4, hcrc, Chunk.crc,
        ChunkType.bytes]
  · simp [hc1, hc2, hc3, h4]

/-- Decoding a well-framed serialized chunk checks exactly the CRC. -/
theorem chunk_try_from_shape (t : ChunkType) (d : List Nat) (stored : Nat)
    (ht : t.bytes.all isAsciiAlphabetic = true) (hd : d.length < 2 ^ 32)
    (hstored : stored < 2 ^ 32) :
    chunk_try_from (u32_be d.length ++ t.bytes ++ d ++ u32_be stored) =
      if crc32 (t.bytes ++ d) = stored then .ok ⟨t, d⟩
      else .err (.crcMismatch stored (crc32 (t.bytes ++ d))) := by
  rw [chunk_try_from_general t d (u32_be stored) ht hd,
    if_pos (show (u32_be stored).length = 4 from rfl),
    be_u32_u32_be hstored]

theorem getD_lt_of_mem {s : List Nat} (hb : ∀ b ∈ s, b < 256) {k : Nat}
    (hk : k < s.length) : s.getD k 0 < 256 := by
  rw [List.getD_eq_getElem?_getD, List.getElem?_eq_getElem hk]
  exact hb _ (List.getElem_mem hk)

/-- A successful decode forces the input to be exactly `12 + length` bytes
and to equal the re-serialization of the decoded chunk. -/
theorem chunk_try_from_ok (s : List Nat) (c : Chunk)
    (hb : ∀ b ∈ s, b < 256) (h : chunk_try_from s = .ok c) :
    c.as_bytes = s ∧ s.length = 12 + c.data.length ∧
    c.data.length = be_u32 (s.take 4) := by
  set L := be_u32 (s.take 4) with hL
  simp only [chunk_try_from, ← hL] at h
  split at h
  · exact absurd h (by simp)
  next h4 =>
  split at h
  · exact absurd h (by simp)
  next h8 =>
  split at h
  next e hty => exact absurd h (by simp)
  next ct hty =>
  split at h
  · exact absurd h (by simp)
  next hLfit =>
  split at h
  next hr4 =>
    split at h
    · exact absurd h (by simp)
    next hcrc =>
      -- the decoded chunk
      have hc : c = ⟨ct, (s.drop 8).take L⟩ := by
        cases h
        rfl
      push_neg at hcrc
      -- arithmetic facts about the framing
      have hslen : s.length = 12 + L := by
        have := List.length_drop (8 + L) s
        omega
      have hLlt : L < 2 ^ 32 := by
        rw [hL, take4_eq s (by omega)]
        exact be_u32_lt (getD_lt_of_mem hb (by omega))
          (getD_lt_of_mem hb (by omega)) (getD_lt_of_mem hb (by omega))
          (getD_lt_of_mem hb (by omega))
      have hdlen : ((s.drop 8).take L).length = L := by
        simp [List.length_take, List.length_drop]
        omega
      -- the type bytes
      have hctval : ct = ⟨s.getD 4 0, s.getD 5 0, s.getD 6 0, s.getD 7 0⟩ := by
        unfold ChunkType.try_from at hty
        split at hty
        · cases hty
          rfl
        · cases hty
      -- each region of s
      have htake4 : s.take 4 = u32_be L := by
        rw [hL, take4_eq s (by omega), u32_be_be_u32
          (getD_lt_of_mem hb (by omega)) (getD_lt_of_mem hb (by omega))
          (getD_lt_of_mem hb (by omega)) (getD_lt_of_mem hb (by omega))]
      have htype4 : (s.drop 4).take 4 = ct.bytes := by
        rw [take4_eq (s.drop 4) (by simp [List.length_drop]; omega),
          getD_drop, getD_drop, getD_drop, getD_drop, hctval]
        rfl
      have hrest4 : s.drop (8 + L) = u32_be (Chunk.crc ⟨ct, (s.drop 8).take L⟩) := by
        have hsub : ∀ b ∈ s.drop (8 + L), b < 256 := fun b hbm =>
          hb b (List.drop_subset _ s hbm)
        have hx : s.drop (8 + L) = (s.drop (8 + L)).take 4 := by
          rw [List.take_of_length_le (by omega)]
        rw [hcrc, hx, take4_eq _ (by omega), u32_be_be_u32
          (getD_lt_of_mem hsub (by omega)) (getD_lt_of_mem hsub (by omega))
          (getD_lt_of_mem hsub (by omega)) (getD_lt_of_mem hsub (by omega))]
      -- reassemble
      have hsplit : s = s.take 4 ++ ((s.drop 4).take 4 ++
          ((s.drop 8).take L ++ s.drop (8 + L))) := by
        have d48 : (s.drop 4).drop 4 = s.drop 8 := by
          rw [List.drop_drop]
        have d8L : (s.drop 8).drop L = s.drop (8 + L) := by
          rw [List.drop_drop]
        calc s = s.take 4 ++ s.drop 4 := (List.take_append_drop 4 s).symm
          _ = s.take 4 ++ ((s.drop 4).take 4 ++ (s.drop 4).drop 4) := by
              rw [List.take_append_drop 4 (s.drop 4)]
          _ = s.take 4 ++ ((s.drop 4).take 4 ++
                ((s.drop 8).take L ++ (s.drop 8).drop L)) := by
              rw [d48, List.take_append_drop L (s.drop 8)]
          _ = _ := by rw [d8L]
      subst hc
      refine ⟨?_, by rw [hdlen]; exact hslen, by rw [hdlen]⟩
      rw [Chunk.as_bytes]
      simp only [Chunk.length, hdlen, Nat.mod_eq_of_lt hLlt]
      rw [← htake4, ← htype4, ← hrest4]
      simp only [List.append_assoc]
      exact hsplit.symm
  · exact absurd h (by simp)

/-! ## Bit-flip helpers -/

theorem getD_append_left {l1 l2 : List Nat} {k : Nat} (h : k < l1.length) :
    (l1 ++ l2).getD k 0 = l1.getD k 0 := by
  simp [List.getD_eq_getElem?_getD, List.getElem?_append_left h]

theorem getD_append_right {l1 l2 : List Nat} {k : Nat} (h : l1.length ≤ k) :
    (l1 ++ l2).getD k 0 = l2.getD (k - l1.length) 0 := by
  simp [List.getD_eq_getElem?_getD, List.getElem?_append_right h]

theorem xor_two_pow_ne (b i : Nat) : b ^^^ 2 ^ i ≠ b := by
  intro h
  have h2 : 2 ^ i = 0 := by
    calc 2 ^ i = b ^^^ (b ^^^ 2 ^ i) := (Nat.xor_cancel_left b (2 ^ i)).symm
      _ = b ^^^ b := by rw [h]
      _ = 0 := Nat.xor_self b
  exact absurd h2 (by positivity)

theorem list_flip_decomp (d : List Nat) (k : Nat) (hk : k < d.length) :
    d = d.take k ++ d.getD k 0 :: d.drop (k + 1) := by
  have hGD : d.getD k 0 = d.get ⟨k, hk⟩ := by
    rw [List.getD_eq_getElem?_getD, List.getElem?_eq_getElem hk]
    rfl
  rw [hGD]
  conv_lhs => rw [← List.take_append_drop k d]
  rw [List.drop_eq_getElem_cons hk]
  rfl

theorem u32_be_be_u32_list : ∀ (l : List Nat), l.length = 4 →
    (∀ b ∈ l, b < 256) → u32_be (be_u32 l) = l
  | [a, b, c, d], _, hb =>
    u32_be_be_u32 (hb a (by simp)) (hb b (by simp)) (hb c (by simp))
      (hb d (by simp))
  | [], h, _ => by simp at h
  | [_], h, _ => by simp at h
  | [_, _], h, _ => by simp at h
  | [_, _, _], h, _ => by simp at h
  | _ :: _ :: _ :: _ :: _ :: _, h, _ => by simp at h

theorem be_u32_lt_list : ∀ (l : List Nat), l.length = 4 →
    (∀ b ∈ l, b < 256) → be_u32 l < 2 ^ 32
  | [a, b, c, d], _, hb =>
    be_u32_lt (hb a (by simp)) (hb b (by simp)) (hb c (by simp))
      (hb d (by simp))
  | [], h, _ => by simp at h
  | [_], h, _ => by simp at h
  | [_, _], h, _ => by simp at h
  | [_, _, _], h, _ => by simp at h
  | _ :: _ :: _ :: _ :: _ :: _, h, _ => by simp at h

/-- Flipping one bit of one byte of a 4-byte big-endian block changes the
decoded 32-bit value. -/
theorem be_u32_set_flip_ne : ∀ (l : List Nat), l.length = 4 →
    (∀ b ∈ l, b < 256) → ∀ k i : Nat, k < 4 → i < 8 →
    be_u32 (l.set k (l.getD k 0 ^^^ 2 ^ i)) ≠ be_u32 l
  | [a, b, c, d], _, hb, k, i, hk, hi => by
    have ha := hb a (by simp)
    have hbb := hb b (by simp)
    have hc := hb c (by simp)
    have hd := hb d (by simp)
    have hp : 2 ^ i < 256 := by
      calc 2 ^ i < 2 ^ 8 := Nat.pow_lt_pow_right (by norm_num) hi
        _ = 256 := by norm_num
    interval_cases k <;>
    · intro heq
      simp only [List.set_cons_zero, List.set_cons_succ, List.getD_cons_zero,
        List.getD_cons_succ, be_u32] at heq
      first
      | (have hflip : a ^^^ 2 ^ i ≠ a := xor_two_pow_ne a i
         have hlt : a ^^^ 2 ^ i < 256 :=
           Nat.xor_lt_two_pow (x := a) (n := 8) (by omega) (by omega)
         generalize hge : a ^^^ 2 ^ i = e at heq hlt hflip
         omega)
      | (have hflip : b ^^^ 2 ^ i ≠ b := xor_two_pow_ne b i
         have hlt : b ^^^ 2 ^ i < 256 :=
           Nat.xor_lt_two_pow (x := b) (n := 8) (by omega) (by omega)
         generalize hge : b ^^^ 2 ^ i = e at heq hlt hflip
         omega)
      | (have hflip : c ^^^ 2 ^ i ≠ c := xor_two_pow_ne c i
         have hlt : c ^^^ 2 ^ i < 256 :=
           Nat.xor_lt_two_pow (x := c) (n := 8) (by omega) (by omega)
         generalize hge : c ^^^ 2 ^ i = e at heq hlt hflip
         omega)
      | (have hflip : d ^^^ 2 ^ i ≠ d := xor_two_pow_ne d i
         have hlt : d ^^^ 2 ^ i < 256 :=
           Nat.xor_lt_two_pow (x := d) (n := 8) (by omega) (by omega)
         generalize hge : d ^^^ 2 ^ i = e at heq hlt hflip
         omega)
  | [], h, _, _, _, _, _ => by simp at h
  | [_], h, _, _, _, _, _ => by simp at h
  | [_, _], h, _, _, _, _, _ => by simp at h
  | [_, _, _], h, _, _, _, _, _ => by simp at h
  | _ :: _ :: _ :: _ :: _ :: _, h, _, _, _, _, _ => by simp at h

/-- C2: chunk-level round-trip: for every valid `ChunkType` and every byte
sequence whose length fits in 32 bits, decoding the serialization of
`Chunk::new(type, data)` succeeds with the same type and data (hence an
unchanged `checksum()`), and flipping any single bit in the data or CRC
region of the serialized form makes decoding fail with a CRC-mismatch
error. -/
theorem chunk_roundtrip_and_bitflip (t : ChunkType) (d : List Nat)
    (ht : t.wf) (hd256 : ∀ b ∈ d, b < 256) (hdlen : d.length < 2 ^ 32) :
    chunk_try_from (Chunk.as_bytes ⟨t, d⟩) = .ok ⟨t, d⟩ ∧
    (∀ j i : Nat, 8 ≤ j → j < 12 + d.length → i < 8 →
      (chunk_try_from (flipBitAt (Chunk.as_bytes ⟨t, d⟩) j i)).isCrcMismatch
        = true) := by
  have htb256 : ∀ b ∈ t.bytes, b < 256 := by
    intro b hb
    have := List.all_eq_true.mp ht b hb
    simp [isAsciiAlphabetic, isAsciiUppercase, isAsciiLowercase] at this
    omega
  have hmsg256 : ∀ b ∈ t.bytes ++ d, b < 256 := by
    intro b hb
    rcases List.mem_append.mp hb with h | h
    · exact htb256 b h
    · exact hd256 b h
  have hcrclt : crc32 (t.bytes ++ d) < 2 ^ 32 := crc32_lt hmsg256
  have hAB : Chunk.as_bytes ⟨t, d⟩ =
      u32_be d.length ++ t.bytes ++ d ++ u32_be (crc32 (t.bytes ++ d)) := by
    simp only [Chunk.as_bytes, Chunk.length, Chunk.crc]
    rw [Nat.mod_eq_of_lt hdlen]
  constructor
  · rw [hAB, chunk_try_from_shape t d _ ht hdlen hcrclt, if_pos rfl]
  · intro j i hj8 hj12 hi8
    rw [hAB]
    set C := u32_be (crc32 (t.bytes ++ d)) with hC
    have hClen : C.length = 4 := rfl
    have hC256 : ∀ b ∈ C, b < 256 := by
      rw [hC]
      simp only [u32_be, List.mem_cons, List.not_mem_nil, or_false]
      rintro b (rfl | rfl | rfl | rfl) <;> exact Nat.mod_lt _ (by norm_num)
    have hXlen : (u32_be d.length ++ t.bytes ++ d).length = 8 + d.length := by
      simp [u32_be, length_bytes]
      omega
    by_cases hjd : j < 8 + d.length
    · -- flip inside the data region
      obtain ⟨k, rfl⟩ : ∃ k, j = 8 + k := ⟨j - 8, by omega⟩
      have hk : k < d.length := by omega
      set b := d.getD k 0 with hb
      have hassoc : u32_be d.length ++ t.bytes ++ d ++ C =
          (u32_be d.length ++ t.bytes) ++ (d ++ C) := by
        simp [List.append_assoc]
      have hpre8 : (u32_be d.length ++ t.bytes).length = 8 := by
        simp [u32_be, length_bytes]
      have hgetj : (u32_be d.length ++ t.bytes ++ d ++ C).getD (8 + k) 0 = b := by
        rw [hassoc, getD_append_right (by omega), hpre8]
        have : 8 + k - 8 = k := by omega
        rw [this, getD_append_left hk]
      have hsetj : ∀ x, (u32_be d.length ++ t.bytes ++ d ++ C).set (8 + k) x =
          u32_be d.length ++ t.bytes ++ (d.set k x) ++ C := by
        intro x
        rw [hassoc, List.set_append_right _ _ (by omega), hpre8]
        have h8 : 8 + k - 8 = k := by omega
        rw [h8, List.set_append_left _ _ hk]
        simp [List.append_assoc]
      rw [flipBitAt, hgetj, hsetj]
      set d2 := d.set k (b ^^^ 2 ^ i) with hd2
      have hd2eq : d2 = d.take k ++ (b ^^^ 2 ^ i) :: d.drop (k + 1) := by
        rw [hd2, List.set_eq_take_append_cons_drop, if_pos hk]
      have hd2len : d2.length = d.length := by simp [hd2]
      have hd2u : u32_be d.length = u32_be d2.length := by rw [hd2len]
      have hd2_256 : ∀ x ∈ d2, x < 256 := by
        intro x hx
        rcases List.mem_or_eq_of_mem_set hx with h | rfl
        · exact hd256 x h
        · refine Nat.xor_lt_two_pow (x := b) (n := 8) ?_ ?_
          · rw [hb]
            exact getD_lt_of_mem hd256 hk
          · calc 2 ^ i < 2 ^ 8 := Nat.pow_lt_pow_right (by norm_num) hi8
              _ = 2 ^ 8 := rfl
      have hflip : crc32 (t.bytes ++ d2) ≠ crc32 (t.bytes ++ d) := by
        have hdd : t.bytes ++ d =
            (t.bytes ++ d.take k) ++ b :: d.drop (k + 1) := by
          conv_lhs => rw [list_flip_decomp d k hk]
          simp [List.append_assoc, hb]
        have hdd2 : t.bytes ++ d2 =
            (t.bytes ++ d.take k) ++ (b ^^^ 2 ^ i) :: d.drop (k + 1) := by
          rw [hd2eq]
          simp [List.append_assoc]
        rw [hdd, hdd2]
        exact crc32_flip_ne (t.bytes ++ d.take k) (d.drop (k + 1)) b i
          (by omega)
      rw [hC, hd2u,
        chunk_try_from_shape t d2 (crc32 (t.bytes ++ d)) ht
          (by rw [hd2len]; exact hdlen) hcrclt,
        if_neg hflip]
      rfl
    · -- flip inside the CRC region
      obtain ⟨k, rfl⟩ : ∃ k, j = 8 + d.length + k := ⟨j - (8 + d.length), by omega⟩
      have hk : k < 4 := by omega
      have hgetj : (u32_be d.length ++ t.bytes ++ d ++ C).getD (8 + d.length + k) 0 =
          C.getD k 0 := by
        rw [getD_append_right (by rw [hXlen]; omega), hXlen]
        congr 1
        omega
      have hsetj : ∀ x,
          (u32_be d.length ++ t.bytes ++ d ++ C).set (8 + d.length + k) x =
          u32_be d.length ++ t.bytes ++ d ++ C.set k x := by
        intro x
        rw [List.set_append_right _ _ (by rw [hXlen]; omega), hXlen]
        congr 2
        omega
      rw [flipBitAt, hgetj, hsetj]
      set C2 := C.set k (C.getD k 0 ^^^ 2 ^ i) with hC2
      have hC2len : C2.length = 4 := by
        rw [hC2]
        simp [hClen]
      have hC2_256 : ∀ x ∈ C2, x < 256 := by
        intro x hx
        rcases List.mem_or_eq_of_mem_set hx with h | rfl
        · exact hC256 x h
        · have hgd : C.getD k 0 < 256 := getD_lt_of_mem hC256 (by omega)
          refine Nat.xor_lt_two_pow (n := 8) (by omega) ?_
          calc 2 ^ i < 2 ^ 8 := Nat.pow_lt_pow_right (by norm_num) hi8
            _ = 2 ^ 8 := rfl
      have hstored : be_u32 C2 < 2 ^ 32 := be_u32_lt_list C2 hC2len hC2_256
      have hC2u : C2 = u32_be (be_u32 C2) :=
        (u32_be_be_u32_list C2 hC2len hC2_256).symm
      have hne : crc32 (t.bytes ++ d) ≠ be_u32 C2 := by
        have h1 : be_u32 C2 ≠ be_u32 C :=
          be_u32_set_flip_ne C hClen hC256 k i hk hi8
        have h2 : be_u32 C = crc32 (t.bytes ++ d) := by
          rw [hC, be_u32_u32_be hcrclt]
        intro h
        exact h1 (by rw [← h, h2])
      rw [hC2u, chunk_try_from_shape t d (be_u32 C2) ht hdlen hstored,
        if_neg hne]
      rfl

/-! ## Claim theorems: ChunkType -/

/-- C4: `ChunkType` construction from 4 raw bytes succeeds iff all 4 bytes
are ASCII alphabetic (A-Z or a-z); the bytes of "RuSt" succeed and those of
"Ru1t" fail with a construction error. -/
theorem chunkType_from_bytes_iff :
    (∀ b0 b1 b2 b3 : Nat,
      (∃ t, ChunkType.try_from b0 b1 b2 b3 = .ok t) ↔
        ∀ b ∈ [b0, b1, b2, b3], (65 ≤ b ∧ b ≤ 90) ∨ (97 ≤ b ∧ b ≤ 122)) ∧
    ChunkType.try_from 82 117 83 116 = .ok ⟨82, 117, 83, 116⟩ ∧
    (∃ e, ChunkType.try_from 82 117 49 116 = .error e) := by
  refine ⟨?_, rfl, ⟨"Cant create chunk type with invalid data", rfl⟩⟩
  intro b0 b1 b2 b3
  unfold ChunkType.try_from
  split
  · next hall =>
    simp only [List.all_eq_true, Bool.or_eq_true, Bool.and_eq_true,
      decide_eq_true_eq, isAsciiAlphabetic, isAsciiUppercase,
      isAsciiLowercase] at hall
    simpa using hall
  · next hall =>
    simp only [List.all_eq_true, Bool.or_eq_true, Bool.and_eq_true,
      decide_eq_true_eq, isAsciiAlphabetic, isAsciiUppercase,
      isAsciiLowercase] at hall
    constructor
    · rintro ⟨t, ht⟩; cases ht
    · intro h; exact absurd (by simpa using h) hall

/-- C5: bit-property semantics of `ChunkType`: `is_critical` iff byte 0 is
uppercase, `is_public` iff byte 1 is uppercase, `is_reserved_bit_valid` iff
byte 2 is uppercase, `is_safe_to_copy` iff byte 3 is lowercase, `is_valid`
equals `is_reserved_bit_valid`; concrete valuations for "RuSt" and "Rust". -/
theorem chunkType_bit_semantics :
    (∀ t : ChunkType,
      (t.is_critical = true ↔ 65 ≤ t.c0 ∧ t.c0 ≤ 90) ∧
      (t.is_public = true ↔ 65 ≤ t.c1 ∧ t.c1 ≤ 90) ∧
      (t.is_reserved_bit_valid = true ↔ 65 ≤ t.c2 ∧ t.c2 ≤ 90) ∧
      (t.is_safe_to_copy = true ↔ 97 ≤ t.c3 ∧ t.c3 ≤ 122) ∧
      t.is_valid = t.is_reserved_bit_valid) ∧
    ((ChunkType.mk 82 117 83 116).is_critical = true ∧
     (ChunkType.mk 82 117 83 116).is_public = false ∧
     (ChunkType.mk 82 117 83 116).is_reserved_bit_valid = true ∧
     (ChunkType.mk 82 117 83 116).is_safe_to_copy = true ∧
     (ChunkType.mk 82 117 83 116).is_valid = true) ∧
    ((ChunkType.mk 82 117 115 116).is_reserved_bit_valid = false ∧
     (ChunkType.mk 82 117 115 116).is_valid = false) := by
  refine ⟨?_, by decide, by decide⟩
  intro t
  simp [ChunkType.is_critical, ChunkType.is_public,
    ChunkType.is_reserved_bit_valid, ChunkType.is_safe_to_copy,
    ChunkType.is_valid, isAsciiUppercase, isAsciiLowercase]

/-! ## Claim theorems: Chunk layout and CRC vector -/

/-- C6: `Chunk::as_bytes` emits exactly `length:u32 | type:4 | data:N |
crc:u32`, big-endian, with total size `12 + N`; each region of the output
recovers the corresponding field. -/
theorem chunk_serialization_layout (c : Chunk) :
    c.as_bytes =
      u32_be c.length ++ c.chunk_type.bytes ++ c.data ++ u32_be c.crc ∧
    c.as_bytes.length = 12 + c.data.length ∧
    c.as_bytes.take 4 = u32_be c.length ∧
    (c.as_bytes.drop 4).take 4 = c.chunk_type.bytes ∧
    (c.as_bytes.drop 8).take c.data.length = c.data ∧
    c.as_bytes.drop (8 + c.data.length) = u32_be c.crc ∧
    be_u32 (c.as_bytes.take 4) = c.length := by
  have hA : c.as_bytes =
      u32_be c.length ++ (c.chunk_type.bytes ++ (c.data ++ u32_be c.crc)) := by
    simp [Chunk.as_bytes]
  have htake4 : c.as_bytes.take 4 = u32_be c.length := by
    rw [hA]; exact List.take_left' rfl
  have hdrop4 : c.as_bytes.drop 4 =
      c.chunk_type.bytes ++ (c.data ++ u32_be c.crc) := by
    rw [hA]; exact List.drop_left' rfl
  have hdrop8 : c.as_bytes.drop 8 = c.data ++ u32_be c.crc := by
    rw [show (8 : Nat) = 4 + 4 from rfl, ← List.drop_drop, hdrop4]
    exact List.drop_left' rfl
  refine ⟨rfl, ?_, htake4, ?_, ?_, ?_, ?_⟩
  · simp [Chunk.as_bytes, u32_be, ChunkType.bytes, List.length_append]
    omega
  · rw [hdrop4]; exact List.take_left' rfl
  · rw [hdrop8]; exact List.take_left' rfl
  · rw [← List.drop_drop, hdrop8]; exact List.drop_left' rfl
  · rw [htake4]; exact be_u32_u32_be (Nat.mod_lt _ (by norm_num))

set_option maxRecDepth 40000 in
/-- C8: the checksum of a chunk with type bytes "RuSt" and the repository's
42-byte secret-message data equals 2882656334, and `Chunk::crc` is a pure
recomputation over `type.bytes ++ data` (no cached field exists). -/
theorem chunk_crc_known_vector :
    Chunk.crc ⟨⟨82, 117, 83, 116⟩, secretMessageBytes⟩ = 2882656334 ∧
    secretMessageBytes.length = 42 ∧
    (∀ c : Chunk, c.crc = crc32 (c.chunk_type.bytes ++ c.data)) := by
  exact ⟨by decide, rfl, fun c => rfl⟩

/-! ## Claim theorems: decoding errors -/

/-- C7: with well-formed framing (a `length | type | data | crc` stream with
valid type bytes), decoding fails with a CRC-mismatch error iff the stored
4-byte big-endian CRC differs from the CRC-32 (polynomial `0xEDB88320`)
recomputed over the type bytes and the data bytes, and succeeds — yielding
exactly that type and data — iff they agree. -/
theorem chunk_decode_crc_iff (t : ChunkType) (d : List Nat) (stored : Nat)
    (ht : t.wf) (hdlen : d.length < 2 ^ 32) (hstored : stored < 2 ^ 32) :
    (chunk_try_from (u32_be d.length ++ t.bytes ++ d ++ u32_be stored) =
        .ok ⟨t, d⟩ ↔ stored = crc32 (t.bytes ++ d)) ∧
    ((chunk_try_from
        (u32_be d.length ++ t.bytes ++ d ++ u32_be stored)).isCrcMismatch
        = true ↔ stored ≠ crc32 (t.bytes ++ d)) := by
  rw [chunk_try_from_shape t d stored ht hdlen hstored]
  by_cases h : crc32 (t.bytes ++ d) = stored
  · rw [if_pos h]
    simp [DecodeResult.isCrcMismatch, h.symm]
  · rw [if_neg h]
    have h2 : stored ≠ crc32 (t.bytes ++ d) := fun hh => h hh.symm
    simp [DecodeResult.isCrcMismatch, h2]

/-- C10: a successful chunk decode forces the slice length to be exactly
`12 + length`; appending any trailing bytes to a chunk whose embedded CRC is
valid makes decoding return an error. -/
theorem chunk_decode_exact_length :
    (∀ (s : List Nat) (c : Chunk), (∀ b ∈ s, b < 256) →
      chunk_try_from s = .ok c → s.length = 12 + be_u32 (s.take 4)) ∧
    (∀ (t : ChunkType) (d extra : List Nat), t.wf → d.length < 2 ^ 32 →
      extra ≠ [] →
      chunk_try_from (u32_be d.length ++ t.bytes ++ d ++
        (u32_be (crc32 (t.bytes ++ d)) ++ extra)) = .err .sliceErr) := by
  constructor
  · intro s c hb h
    obtain ⟨-, h2, h3⟩ := chunk_try_from_ok s c hb h
    rw [h2, h3]
  · intro t d extra ht hdlen hextra
    rw [chunk_try_from_general t d (u32_be (crc32 (t.bytes ++ d)) ++ extra)
      ht hdlen]
    rw [if_neg]
    have : (u32_be (crc32 (t.bytes ++ d)) ++ extra).length = 4 + extra.length := by
      simp [u32_be]
      omega
    rw [this]
    have : 0 < extra.length := List.length_pos.mpr hextra
    omega

/-- C3 (amended): on a truncated input — fewer than 8 bytes, or a declared
data length that exceeds the remaining buffer — the decoder hits an
out-of-bounds slice index, i.e. the process panics; the panic is modelled
explicitly as the `panicked` outcome, distinct from every returned error. -/
theorem chunk_truncated_panics :
    (∀ s : List Nat, s.length < 8 →
      chunk_try_from s = .panicked "slice index out of range") ∧
    (∀ s : List Nat, 8 ≤ s.length →
      ([s.getD 4 0, s.getD 5 0, s.getD 6 0, s.getD 7 0].all
        isAsciiAlphabetic) = true →
      s.length < 8 + be_u32 (s.take 4) →
      chunk_try_from s = .panicked "slice index out of range") := by
  constructor
  · intro s h8
    simp only [chunk_try_from]
    by_cases h4 : s.length < 4
    · rw [if_pos h4]
    · rw [if_neg h4, if_pos h8]
  · intro s h8 halpha hover
    have hty : ChunkType.try_from (s.getD 4 0) (s.getD 5 0) (s.getD 6 0)
        (s.getD 7 0) =
        .ok ⟨s.getD 4 0, s.getD 5 0, s.getD 6 0, s.getD 7 0⟩ := by
      unfold ChunkType.try_from
      rw [if_pos halpha]
    simp only [chunk_try_from]
    rw [if_neg (by omega), if_neg (by omega), hty]
    simp [hover]

/-- C3 counterexample: a 10-byte input declaring a 5-byte data field ends in
an out-of-bounds panic, not in a returned error value. -/
theorem chunk_truncated_counterexample :
    chunk_try_from [0, 0, 0, 5, 82, 117, 83, 116, 1, 2] =
      .panicked "slice index out of range" ∧
    (¬ ∃ e, chunk_try_from [0, 0, 0, 5, 82, 117, 83, 116, 1, 2] = .err e) := by
  refine ⟨rfl, ?_⟩
  rintro ⟨e, he⟩
  rw [show chunk_try_from [0, 0, 0, 5, 82, 117, 83, 116, 1, 2] =
    .panicked "slice index out of range" from rfl] at he
  exact DecodeResult.noConfusion he

/-! ## Claim theorems: the container -/

theorem parseChunks_serialize (n : Nat) : ∀ (buf : List Nat) (cs : List Chunk),
    buf.length ≤ n → (∀ b ∈ buf, b < 256) → parseChunks buf = .ok cs →
    (cs.map Chunk.as_bytes).flatten = buf := by
  induction n with
  | zero =>
    intro buf cs hn hb h
    have hbuf : buf = [] := List.eq_nil_of_length_eq_zero (by omega)
    subst hbuf
    rw [parseChunks] at h
    simp at h
    subst h
    rfl
  | succ n ih =>
    intro buf cs hn hb h
    rw [parseChunks] at h
    split at h
    · next hbuf =>
      subst hbuf
      simp at h
      subst h
      rfl
    · next hbuf =>
      split at h
      · next c heq =>
        split at h
        · next cs' heq2 =>
          cases h
          set L := be_u32 (buf.take 4) with hL
          have hsub : ∀ b ∈ buf.take (12 + L), b < 256 := fun b hbm =>
            hb b (List.take_subset _ _ hbm)
          obtain ⟨hser, hslen, hdlen⟩ :=
            chunk_try_from_ok (buf.take (12 + L)) c hsub heq
          have htt : (buf.take (12 + L)).take 4 = buf.take 4 := by
            rw [List.take_take]
            congr 1
            omega
          have hdL : c.data.length = L := by
            rw [hdlen, htt]
          have hbuflen : 12 + L ≤ buf.length := by
            have := List.length_take (12 + L) buf
            omega
          have hdroplen : (buf.drop (12 + L)).length ≤ n := by
            have h0 : buf.length ≠ 0 := fun hh =>
              hbuf (List.eq_nil_of_length_eq_zero hh)
            simp [List.length_drop]
            omega
          have hdropsub : ∀ b ∈ buf.drop (12 + L), b < 256 := fun b hbm =>
            hb b (List.drop_subset _ _ hbm)
          have hrec := ih (buf.drop (12 + L)) cs' hdroplen hdropsub heq2
          simp only [List.map_cons, List.flatten_cons]
          rw [hser, hrec, List.take_append_drop]
        · next e heq2 => cases h
      · next e heq => cases h
      · next msg heq => cases h

/-- C1: container round-trip fidelity: serializing a parsed, unmodified
container reproduces the original input bytes exactly, and parsing that
serialization again yields the same container (same signature handling,
same chunk sequence in the same order). -/
theorem png_roundtrip (buf : List Nat) (p : Png)
    (hb : ∀ b ∈ buf, b < 256) (hp : Png.parse buf = .ok p) :
    p.as_bytes = buf ∧ Png.parse p.as_bytes = .ok p := by
  have h1 : p.as_bytes = buf := by
    unfold Png.parse at hp
    split at hp
    · next hsig =>
      split at hp
      · next cs hcs =>
        cases hp
        unfold Png.as_bytes
        have hsub : ∀ b ∈ buf.drop 8, b < 256 := fun b hbm =>
          hb b (List.drop_subset _ _ hbm)
        have := parseChunks_serialize (buf.drop 8).length (buf.drop 8) cs
          le_rfl hsub hcs
        rw [this, ← hsig, List.take_append_drop]
      · next e he => cases hp
    · next => cases hp
  exact ⟨h1, by rw [h1]; exact hp⟩

theorem removeFirst_eq_none (cs : List Chunk) (t : ChunkType)
    (h : ∀ c ∈ cs, c.chunk_type ≠ t) : removeFirst cs t = none := by
  induction cs with
  | nil => rfl
  | cons c rest ih =>
    unfold removeFirst
    rw [if_neg (h c (List.mem_cons_self _ _)),
      ih (fun x hx => h x (List.mem_cons_of_mem _ hx))]
    rfl

theorem removeFirst_eq_some (pre : List Chunk) (c : Chunk) (suf : List Chunk)
    (t : ChunkType) (hpre : ∀ x ∈ pre, x.chunk_type ≠ t)
    (hc : c.chunk_type = t) :
    removeFirst (pre ++ c :: suf) t = some (c, pre ++ suf) := by
  induction pre with
  | nil =>
    simp only [List.nil_append]
    unfold removeFirst
    rw [if_pos hc]
  | cons x pre ih =>
    simp only [List.cons_append]
    unfold removeFirst
    rw [if_neg (hpre x (List.mem_cons_self _ _)),
      ih (fun y hy => hpre y (List.mem_cons_of_mem _ hy))]
    rfl

/-- C9: `remove_chunk` on a type absent from the container fails with a
not-found error and leaves the container unchanged; when a match exists,
it removes the first matching chunk, returns it, and preserves the relative
order of the remaining chunks. -/
theorem png_remove_chunk_spec (p : Png) (t : ChunkType) :
    ((∀ c ∈ p.chunks, c.chunk_type ≠ t) →
      p.remove_chunk t = (.error .notFound, p)) ∧
    (∀ (pre : List Chunk) (c : Chunk) (suf : List Chunk),
      p.chunks = pre ++ c :: suf → (∀ x ∈ pre, x.chunk_type ≠ t) →
      c.chunk_type = t →
      p.remove_chunk t = (.ok c, ⟨pre ++ suf⟩)) := by
  constructor
  · intro h
    unfold Png.remove_chunk
    rw [removeFirst_eq_none p.chunks t h]
  · intro pre c suf hchunks hpre hc
    unfold Png.remove_chunk
    rw [hchunks, removeFirst_eq_some pre c suf t hpre hc]

/-! ## Witnesses: each hypothesis-bearing claim theorem applied at a
concrete input. -/

theorem chunk_roundtrip_and_bitflip_witness :
    chunk_try_from (Chunk.as_bytes ⟨⟨82, 117, 83, 116⟩, [1, 2, 3]⟩) =
      .ok ⟨⟨82, 117, 83, 116⟩, [1, 2, 3]⟩ ∧
    (chunk_try_from (flipBitAt
      (Chunk.as_bytes ⟨⟨82, 117, 83, 116⟩, [1, 2, 3]⟩) 9 0)).isCrcMismatch
      = true :=
  ⟨(chunk_roundtrip_and_bitflip ⟨82, 117, 83, 116⟩ [1, 2, 3] (by decide)
      (by decide) (by decide)).1,
   (chunk_roundtrip_and_bitflip ⟨82, 117, 83, 116⟩ [1, 2, 3] (by decide)
      (by decide) (by decide)).2 9 0 (by decide) (by decide) (by decide)⟩

theorem chunk_truncated_panics_witness :
    chunk_try_from [0, 0, 0] = .panicked "slice index out of range" ∧
    chunk_try_from [0, 0, 0, 5, 82, 117, 83, 116, 1, 2] =
      .panicked "slice index out of range" :=
  ⟨chunk_truncated_panics.1 [0, 0, 0] (by decide),
   chunk_truncated_panics.2 [0, 0, 0, 5, 82, 117, 83, 116, 1, 2]
     (by decide) (by decide) (by decide)⟩

theorem chunk_decode_crc_iff_witness :
    (chunk_try_from (u32_be (List.length ([] : List Nat)) ++
        ChunkType.bytes ⟨82, 117, 83, 116⟩ ++ [] ++ u32_be 0)).isCrcMismatch
      = true :=
  (chunk_decode_crc_iff ⟨82, 117, 83, 116⟩ [] 0 (by decide) (by decide)
    (by decide)).2.mpr (by decide)

theorem chunk_decode_exact_length_witness :
    (Chunk.as_bytes ⟨⟨82, 117, 83, 116⟩, []⟩).length =
      12 + be_u32 ((Chunk.as_bytes ⟨⟨82, 117, 83, 116⟩, []⟩).take 4) ∧
    chunk_try_from (u32_be (List.length ([] : List Nat)) ++
      ChunkType.bytes ⟨82, 117, 83, 116⟩ ++ [] ++
      (u32_be (crc32 (ChunkType.bytes ⟨82, 117, 83, 116⟩ ++ [])) ++ [0])) =
      .err .sliceErr :=
  ⟨chunk_decode_exact_length.1 (Chunk.as_bytes ⟨⟨82, 117, 83, 116⟩, []⟩)
      ⟨⟨82, 117, 83, 116⟩, []⟩ (by decide) (by decide),
   chunk_decode_exact_length.2 ⟨82, 117, 83, 116⟩ [] [0] (by decide)
      (by decide) (by simp)⟩

theorem png_roundtrip_witness :
    Png.as_bytes ⟨[]⟩ = pngSignature ∧
    Png.parse (Png.as_bytes ⟨[]⟩) = .ok ⟨[]⟩ :=
  png_roundtrip pngSignature ⟨[]⟩ (by decide)
    (by simp [Png.parse, parseChunks, pngSignature])

theorem png_remove_chunk_witness :
    Png.remove_chunk ⟨[⟨⟨82, 117, 83, 116⟩, [104, 105]⟩]⟩ ⟨97, 98, 99, 100⟩ =
      (.error .notFound, ⟨[⟨⟨82, 117, 83, 116⟩, [104, 105]⟩]⟩) ∧
    Png.remove_chunk ⟨[⟨⟨82, 117, 83, 116⟩, [104, 105]⟩]⟩ ⟨82, 117, 83, 116⟩ =
      (.ok ⟨⟨82, 117, 83, 116⟩, [104, 105]⟩, ⟨[]⟩) :=
  ⟨(png_remove_chunk_spec ⟨[⟨⟨82, 117, 83, 116⟩, [104, 105]⟩]⟩
      ⟨97, 98, 99, 100⟩).1 (by decide),
   (png_remove_chunk_spec ⟨[⟨⟨82, 117, 83, 116⟩, [104, 105]⟩]⟩
      ⟨82, 117, 83, 116⟩).2 [] ⟨⟨82, 117, 83, 116⟩, [104, 105]⟩ [] rfl
      (by simp) rfl⟩

end Pngme
